import Mathlib

/-!
Verification of the Mandelbrot renderer in src/mandelbrot_set/src/main.rs.

The Rust code is shallowly embedded: `f64` arithmetic is modelled exactly by
rational numbers, machine integers by `Nat`, byte buffers by `List ℕ`, and
fallible operations (the `assert_eq!` in `render`, panicking string slicing in
`parse_pair`) by `Option` respectively an explicit panic-or-return type.
-/

set_option maxHeartbeats 1000000

namespace Mandelbrot

/-- Model of `num::Complex<T>`: a pair of components.  The renderer uses `Complex<f64>`,
modelled as `Complex ℚ` (exact arithmetic). -/
structure Complex (α : Type) where
  re : α
  im : α
deriving DecidableEq

@[ext] lemma Complex.ext {α : Type} {a b : Complex α}
    (h1 : a.re = b.re) (h2 : a.im = b.im) : a = b := by
  cases a; cases b; cases h1; cases h2; rfl

/-- Complex addition, componentwise (as in the num crate). -/
instance : Add (Complex ℚ) := ⟨fun a b => ⟨a.re + b.re, a.im + b.im⟩⟩

/-- Complex multiplication (as in the num crate). -/
instance : Mul (Complex ℚ) := ⟨fun a b =>
  ⟨a.re * b.re - a.im * b.im, a.re * b.im + a.im * b.re⟩⟩

@[simp] lemma Complex.add_re (a b : Complex ℚ) : (a + b).re = a.re + b.re := rfl

@[simp] lemma Complex.add_im (a b : Complex ℚ) : (a + b).im = a.im + b.im := rfl

@[simp] lemma Complex.mul_re (a b : Complex ℚ) :
    (a * b).re = a.re * b.re - a.im * b.im := rfl

@[simp] lemma Complex.mul_im (a b : Complex ℚ) :
    (a * b).im = a.re * b.im + a.im * b.re := rfl

/-- Model of `num::Complex::norm_sqr`: `re*re + im*im`. -/
def Complex.norm_sqr (z : Complex ℚ) : ℚ := z.re * z.re + z.im * z.im

/-- The loop of `belongs_to_mandelbrot_set` (main.rs lines 77-85): `z` is the
current value, `i` the current 0-based iteration index, `fuel` the number of
iterations still to run. -/
def mandelbrotLoop (c : Complex ℚ) : Complex ℚ → ℕ → ℕ → Option ℕ
  | _, _, 0 => none
  | z, i, fuel + 1 =>
    let z1 := z * z + c
    if 4 < z1.norm_sqr then some i else mandelbrotLoop c z1 (i + 1) fuel

/-- main.rs `belongs_to_mandelbrot_set`: starting from `z = 0`, iterate
`z ← z*z + c` up to `limit` times; return `Some i` as soon as `norm_sqr z > 4`
after the update of iteration `i`, and `None` if the loop finishes. -/
def belongs_to_mandelbrot_set (c : Complex ℚ) (limit : ℕ) : Option ℕ :=
  mandelbrotLoop c ⟨0, 0⟩ 0 limit

/-- The orbit of `0` under `z ↦ z² + c`: `zIter c n` is `z` after `n` updates. -/
def zIter (c : Complex ℚ) : ℕ → Complex ℚ
  | 0 => ⟨0, 0⟩
  | n + 1 => zIter c n * zIter c n + c

/-- Reference escape-time definition, following the spec's words: the result is
`EscapedAt i` (`some i`) for the least 0-based index `i < limit` such that
`|z|² > 4` after the `(i+1)`-st update, and `BoundedAfterLimit` (`none`) if all
`limit` iterations complete without `|z|²` exceeding `4`. -/
def escapeTimeRef (c : Complex ℚ) (limit : ℕ) : Option ℕ :=
  (List.range limit).find? (fun i => decide (4 < (zIter c (i + 1)).norm_sqr))

lemma find?_map_eq {α β : Type} (f : α → β) (p : β → Bool) :
    ∀ l : List α, (l.map f).find? p = (l.find? (fun a => p (f a))).map f := by
  intro l
  induction l with
  | nil => rfl
  | cons a l ih =>
    simp only [List.map_cons, List.find?_cons]
    cases hp : p (f a) <;> simp [hp, ih]

lemma mandelbrotLoop_eq (c : Complex ℚ) (fuel : ℕ) :
    ∀ i, mandelbrotLoop c (zIter c i) i fuel
        = ((List.range fuel).find?
            (fun k => decide (4 < (zIter c (i + k + 1)).norm_sqr))).map (i + ·) := by
  induction fuel with
  | zero => intro i; simp [mandelbrotLoop]
  | succ fuel ih =>
    intro i
    have hz : zIter c i * zIter c i + c = zIter c (i + 1) := rfl
    rw [List.range_succ_eq_map, List.find?_cons]
    show (if 4 < (zIter c i * zIter c i + c).norm_sqr then some i
          else mandelbrotLoop c (zIter c i * zIter c i + c) (i + 1) fuel) = _
    rw [hz]
    by_cases h : 4 < (zIter c (i + 1)).norm_sqr
    · rw [if_pos h]
      have : decide (4 < (zIter c (i + 0 + 1)).norm_sqr) = true := by
        simpa using h
      rw [this]
      simp
    · rw [if_neg h]
      have h0 : decide (4 < (zIter c (i + 0 + 1)).norm_sqr) = false := by
        simpa using h
      rw [h0, ih (i + 1), find?_map_eq]
      have harg : (fun k => decide (4 < (zIter c (i + 1 + k + 1)).norm_sqr))
          = (fun k => decide (4 < (zIter c (i + (k + 1) + 1)).norm_sqr)) := by
        funext k
        have : i + 1 + k + 1 = i + (k + 1) + 1 := by omega
        rw [this]
      rw [harg, Option.map_map]
      congr 1
      funext x
      simp only [Function.comp_apply]
      omega

/-- C1: `belongs_to_mandelbrot_set` equals the reference escape-time
definition: starting from `z = 0` it applies `z ← z² + c` up to `limit` times,
returns `some i` with the 0-based index `i` of the first update after which
`|z|² > 4`, returns `none` if all `limit` iterations complete without escape,
and for `limit = 0` returns `none` immediately for every input point. -/
theorem belongs_to_mandelbrot_set_correct (c : Complex ℚ) (limit : ℕ) :
    belongs_to_mandelbrot_set c limit = escapeTimeRef c limit ∧
      belongs_to_mandelbrot_set c 0 = none := by
  refine ⟨?_, rfl⟩
  have h := mandelbrotLoop_eq c limit 0
  have hz : (⟨0, 0⟩ : Complex ℚ) = zIter c 0 := rfl
  rw [belongs_to_mandelbrot_set, hz, h]
  have harg : (fun k => decide (4 < (zIter c (0 + k + 1)).norm_sqr))
      = (fun k => decide (4 < (zIter c (k + 1)).norm_sqr)) := by
    funext k
    rw [Nat.zero_add]
  rw [harg, escapeTimeRef]
  cases (List.range limit).find? (fun k => decide (4 < (zIter c (k + 1)).norm_sqr)) with
  | none => rfl
  | some k => simp

lemma mandelbrotLoop_zero_point (fuel : ℕ) :
    ∀ i, mandelbrotLoop ⟨0, 0⟩ ⟨0, 0⟩ i fuel = none := by
  induction fuel with
  | zero => intro i; rfl
  | succ fuel ih =>
    intro i
    have hz : (⟨0, 0⟩ : Complex ℚ) * ⟨0, 0⟩ + ⟨0, 0⟩ = ⟨0, 0⟩ := by
      ext <;> simp
    show (if 4 < ((⟨0, 0⟩ : Complex ℚ) * ⟨0, 0⟩ + ⟨0, 0⟩).norm_sqr then some i
          else mandelbrotLoop ⟨0, 0⟩ ((⟨0, 0⟩ : Complex ℚ) * ⟨0, 0⟩ + ⟨0, 0⟩) (i + 1) fuel) = none
    rw [hz, if_neg (by norm_num [Complex.norm_sqr])]
    exact ih (i + 1)

/-- C8: the Escape-Time Evaluator on `c = 0 + 0i` never escapes: for every
positive `limit`, `belongs_to_mandelbrot_set ⟨0,0⟩ limit = none`. -/
theorem belongs_zero_point (limit : ℕ) (_h : 0 < limit) :
    belongs_to_mandelbrot_set ⟨0, 0⟩ limit = none :=
  mandelbrotLoop_zero_point limit 0

/-- Witness for C8 at `limit = 5`. -/
theorem belongs_zero_point_witness :
    belongs_to_mandelbrot_set ⟨0, 0⟩ 5 = none :=
  belongs_zero_point 5 (by decide)

/-- main.rs `pixel_to_point`: maps a pixel of an image with size `bounds` to
the point of the complex plane with corners `upper_left` and `lower_right`. -/
def pixel_to_point (bounds pixel : ℕ × ℕ) (upper_left lower_right : Complex ℚ) :
    Complex ℚ :=
  let complex_width := lower_right.re - upper_left.re
  let complex_height := upper_left.im - lower_right.im
  { re := upper_left.re + (pixel.1 : ℚ) / (bounds.1 : ℚ) * complex_width
    im := upper_left.im - (pixel.2 : ℚ) / (bounds.2 : ℚ) * complex_height }

/-- C4: for every bounds with positive width and height and every pair of
corner points, `pixel_to_point` maps pixel `(0,0)` exactly to `upper_left` and
pixel `(width, height)` exactly to `lower_right` (both components equal, in the
exact-arithmetic model of the implementation's f64 computations). -/
theorem pixel_to_point_corners (bounds : ℕ × ℕ) (upper_left lower_right : Complex ℚ)
    (hw : 0 < bounds.1) (hh : 0 < bounds.2) :
    pixel_to_point bounds (0, 0) upper_left lower_right = upper_left ∧
      pixel_to_point bounds (bounds.1, bounds.2) upper_left lower_right = lower_right := by
  have hw' : ((bounds.1 : ℚ)) ≠ 0 := Nat.cast_ne_zero.mpr hw.ne'
  have hh' : ((bounds.2 : ℚ)) ≠ 0 := Nat.cast_ne_zero.mpr hh.ne'
  have h1 : (bounds.1 : ℚ) / (bounds.1 : ℚ) = 1 := div_self hw'
  have h2 : (bounds.2 : ℚ) / (bounds.2 : ℚ) = 1 := div_self hh'
  refine ⟨?_, ?_⟩
  · ext <;> simp [pixel_to_point]
  · ext <;> simp [pixel_to_point, h1, h2]

/-- Witness for C4 at `bounds = (100, 100)`, `upper_left = -1 + i`,
`lower_right = 1 - i`. -/
theorem pixel_to_point_corners_witness :
    pixel_to_point (100, 100) (0, 0) ⟨-1, 1⟩ ⟨1, -1⟩ = ⟨-1, 1⟩ ∧
      pixel_to_point (100, 100) (100, 100) ⟨-1, 1⟩ ⟨1, -1⟩ = ⟨1, -1⟩ :=
  pixel_to_point_corners (100, 100) ⟨-1, 1⟩ ⟨1, -1⟩ (by decide) (by decide)

/-- Helper for `chunkSizes`, with explicit fuel so that the function is
structurally recursive (each step consumes at least one element, so fuel
`len` is always enough). -/
def chunkSizesF (size : ℕ) : ℕ → ℕ → List ℕ
  | 0, _ => []
  | fuel + 1, len =>
    if size = 0 ∨ len = 0 then []
    else min size len :: chunkSizesF size fuel (len - size)

/-- The lengths of the chunks produced by `slice::chunks_mut(size)` on a
buffer of length `len`: consecutive chunks of length `size`, the last one
possibly shorter. -/
def chunkSizes (size len : ℕ) : List ℕ := chunkSizesF size len len

lemma chunkSizesF_congr (size : ℕ) : ∀ fuel fuel' len, len ≤ fuel → len ≤ fuel' →
    chunkSizesF size fuel len = chunkSizesF size fuel' len := by
  intro fuel
  induction fuel with
  | zero =>
    intro fuel' len h1 _
    have : len = 0 := by omega
    subst this
    cases fuel' with
    | zero => rfl
    | succ fuel' => simp [chunkSizesF]
  | succ fuel ih =>
    intro fuel' len h1 h2
    cases fuel' with
    | zero =>
      have : len = 0 := by omega
      subst this
      simp [chunkSizesF]
    | succ fuel' =>
      show (if size = 0 ∨ len = 0 then []
            else min size len :: chunkSizesF size fuel (len - size)) =
          (if size = 0 ∨ len = 0 then []
            else min size len :: chunkSizesF size fuel' (len - size))
      by_cases h : size = 0 ∨ len = 0
      · rw [if_pos h, if_pos h]
      · rw [if_neg h, if_neg h]
        push_neg at h
        have := ih fuel' (len - size) (by omega) (by omega)
        rw [this]

lemma chunkSizes_nil (size len : ℕ) (h : size = 0 ∨ len = 0) :
    chunkSizes size len = [] := by
  rcases h with h | h
  · subst h
    cases len with
    | zero => rfl
    | succ n => simp [chunkSizes, chunkSizesF]
  · subst h
    rfl

lemma chunkSizes_cons (size len : ℕ) (hs : 0 < size) (hl : 0 < len) :
    chunkSizes size len = min size len :: chunkSizes size (len - size) := by
  obtain ⟨l, rfl⟩ : ∃ l, len = l + 1 := ⟨len - 1, by omega⟩
  show chunkSizesF size (l + 1) (l + 1) = _
  rw [show chunkSizesF size (l + 1) (l + 1)
      = if size = 0 ∨ l + 1 = 0 then []
        else min size (l + 1) :: chunkSizesF size l (l + 1 - size) from rfl]
  rw [if_neg (by omega)]
  congr 1
  exact chunkSizesF_congr size l (l + 1 - size) (l + 1 - size) (by omega) (by omega)

lemma nat_mul_sub (a b c : ℕ) : a * b - a * c = a * (b - c) := by
  rcases Nat.le_total c b with h | h
  · obtain ⟨d, rfl⟩ := Nat.exists_eq_add_of_le h
    rw [Nat.mul_add, Nat.add_sub_cancel_left, Nat.add_sub_cancel_left]
  · have h1 : b - c = 0 := Nat.sub_eq_zero_of_le h
    have h2 : a * b ≤ a * c := Nat.mul_le_mul_left a h
    rw [h1, Nat.mul_zero, Nat.sub_eq_zero_of_le h2]

/-- The `(top row, band height)` pairs computed by `main` (lines 27-36):
`rows_per_band = height / threads + 1`, the zero-filled buffer of length
`width * height` split by `chunks_mut(rows_per_band * width)`, band `i`
getting top row `rows_per_band * i` and height `chunk length / width`. -/
def bands (width height threads : ℕ) : List (ℕ × ℕ) :=
  ((chunkSizes ((height / threads + 1) * width) (width * height)).enum).map
    (fun p => ((height / threads + 1) * p.1, p.2 / width))

lemma chunk_rows_aux (width rpb : ℕ) (hw : 0 < width) (hr : 0 < rpb) :
    ∀ fuel m j, m ≤ fuel →
      (((chunkSizes (rpb * width) (width * m)).enumFrom j).map
          (fun p => (rpb * p.1, p.2 / width))).flatMap
        (fun b => (List.range b.2).map (b.1 + ·))
      = (List.range m).map (rpb * j + ·) := by
  intro fuel
  induction fuel with
  | zero =>
    intro m j hm
    have : m = 0 := by omega
    subst this
    simp [chunkSizes_nil]
  | succ fuel ih =>
    intro m j hm
    rcases Nat.eq_zero_or_pos m with hm0 | hm0
    · subst hm0
      simp [chunkSizes_nil]
    rcases le_or_lt m rpb with hle | hlt
    · -- a single final chunk of length width * m
      have hmin : min (rpb * width) (width * m) = width * m := by
        apply Nat.min_eq_right
        calc width * m ≤ width * rpb := Nat.mul_le_mul_left width hle
        _ = rpb * width := Nat.mul_comm _ _
      have hzero : width * m - rpb * width = 0 := by
        apply Nat.sub_eq_zero_of_le
        calc width * m ≤ width * rpb := Nat.mul_le_mul_left width hle
        _ = rpb * width := Nat.mul_comm _ _
      rw [chunkSizes_cons _ _ (by positivity) (by positivity), hmin, hzero,
        chunkSizes_nil _ 0 (Or.inr rfl)]
      simp only [List.enumFrom_cons, List.enumFrom_nil, List.map_cons, List.map_nil,
        List.flatMap_cons, List.flatMap_nil, List.append_nil]
      rw [Nat.mul_div_cancel_left m hw]
    · -- a full chunk of length rpb * width followed by the rest
      have hlen : rpb * width < width * m := by
        calc rpb * width = width * rpb := Nat.mul_comm _ _
        _ < width * m := (Nat.mul_lt_mul_left hw).mpr hlt
      have hmin : min (rpb * width) (width * m) = rpb * width :=
        Nat.min_eq_left hlen.le
      have hsub : width * m - rpb * width = width * (m - rpb) := by
        rw [Nat.mul_comm rpb width, nat_mul_sub]
      rw [chunkSizes_cons _ _ (by positivity) (by positivity), hmin, hsub]
      simp only [List.enumFrom_cons, List.map_cons, List.flatMap_cons]
      rw [Nat.mul_div_cancel rpb hw]
      rw [ih (m - rpb) (j + 1) (by omega)]
      conv_rhs => rw [show m = rpb + (m - rpb) from by omega, List.range_add]
      rw [List.map_append, List.map_map]
      have hfun : ((fun x => rpb * j + x) ∘ fun x => rpb + x)
          = (fun x => rpb * (j + 1) + x) := by
        funext x
        simp only [Function.comp_apply]
        ring
      rw [hfun]

/-- C2: for every positive height, width and worker count, the band row-ranges
computed by the dispatch in `main` (stride `height / threads + 1`, chunks of
`stride * width` bytes) are contiguous, pairwise disjoint, and cover `[0, height)`
exactly: concatenating each band's rows in order yields exactly
`[0, 1, ..., height - 1]`. -/
theorem bands_partition (width height threads : ℕ)
    (hw : 0 < width) (_hh : 0 < height) (_ht : 0 < threads) :
    (bands width height threads).flatMap (fun b => (List.range b.2).map (b.1 + ·))
      = List.range height := by
  have h := chunk_rows_aux width (height / threads + 1) hw (Nat.succ_pos _)
    height height 0 le_rfl
  rw [bands]
  rw [show (chunkSizes ((height / threads + 1) * width) (width * height)).enum
      = (chunkSizes ((height / threads + 1) * width) (width * height)).enumFrom 0 from rfl]
  rw [h]
  simp

/-- Witness for C2 at `width = 3`, `height = 5`, `threads = 2`. -/
theorem bands_partition_witness :
    (bands 3 5 2).flatMap (fun b => (List.range b.2).map (b.1 + ·)) = List.range 5 :=
  bands_partition 3 5 2 (by decide) (by decide) (by decide)

/-- The byte `render` writes for one pixel (main.rs lines 63-66): `0` if
`belongs_to_mandelbrot_set` returns `None`, `255` otherwise. -/
def colorAt (limit : ℕ) (bounds : ℕ × ℕ) (upper_left lower_right : Complex ℚ)
    (column row : ℕ) : ℕ :=
  match belongs_to_mandelbrot_set (pixel_to_point bounds (column, row) upper_left lower_right)
      limit with
  | none => 0
  | some _ => 255

/-- main.rs `render`: asserts `pixels.len() == bounds.0 * bounds.1` (failure
modelled as `none`), then writes the colour of every pixel at index
`row * bounds.0 + column`, row-major. -/
def render (limit : ℕ) (pixels : List ℕ) (bounds : ℕ × ℕ)
    (upper_left lower_right : Complex ℚ) : Option (List ℕ) :=
  if pixels.length = bounds.1 * bounds.2 then
    some ((List.range bounds.2).foldl (fun buf row =>
      (List.range bounds.1).foldl (fun buf column =>
        buf.set (row * bounds.1 + column)
          (colorAt limit bounds upper_left lower_right column row)) buf) pixels)
  else none

lemma set_append_len {α : Type} (X Y : List α) (v : α) :
    (X ++ Y).set X.length v = X ++ Y.set 0 v := by
  induction X with
  | nil => rfl
  | cons a X ih => simp [List.set_cons_succ, ih]

lemma foldl_set_row {α : Type} (w off : ℕ) (F : ℕ → α) (buf : List α)
    (hlen : off + w ≤ buf.length) :
    ∀ c, c ≤ w →
      (List.range c).foldl (fun b col => b.set (off + col) (F col)) buf
        = buf.take off ++ (List.range c).map F ++ buf.drop (off + c) := by
  intro c
  induction c with
  | zero => intro _; simp [List.take_append_drop]
  | succ c ih =>
    intro hc
    rw [List.range_succ, List.foldl_append, ih (by omega)]
    simp only [List.foldl_cons, List.foldl_nil, List.range_succ, List.map_append,
      List.map_cons, List.map_nil]
    have hT : (buf.take off).length = off := by
      rw [List.length_take]
      omega
    have hTM : ((buf.take off ++ (List.range c).map F)).length = off + c := by
      rw [List.length_append, hT, List.length_map, List.length_range]
    have hidx : off + c < buf.length := by omega
    set D := buf.drop (off + c) with hD
    rw [show off + c = (buf.take off ++ (List.range c).map F).length from hTM.symm,
      set_append_len, hD]
    rw [List.drop_eq_getElem_cons hidx, List.set_cons_zero]
    simp [List.append_assoc, Nat.add_assoc]

lemma flat_rows_length {α : Type} (w : ℕ) (g : ℕ → ℕ → α) :
    ∀ r, ((List.range r).flatMap
        (fun row => (List.range w).map (fun col => g col row))).length = r * w := by
  intro r
  induction r with
  | zero => simp
  | succ r ih =>
    rw [List.range_succ, List.flatMap_append, List.length_append, ih]
    simp [Nat.succ_mul]

lemma foldl_set_rows {α : Type} (w hh : ℕ) (F : ℕ → ℕ → α) (buf : List α)
    (hlen : buf.length = w * hh) :
    ∀ r, r ≤ hh →
      (List.range r).foldl (fun b row =>
          (List.range w).foldl (fun b col => b.set (row * w + col) (F col row)) b) buf
        = ((List.range r).flatMap (fun row => (List.range w).map (fun col => F col row)))
            ++ buf.drop (r * w) := by
  intro r
  induction r with
  | zero => simp
  | succ r ih =>
    intro hr
    rw [List.range_succ, List.foldl_append, ih (by omega)]
    simp only [List.foldl_cons, List.foldl_nil]
    set P := (List.range r).flatMap (fun row => (List.range w).map (fun col => F col row))
      with hP
    have hPlen : P.length = r * w := flat_rows_length w F r
    have hprevlen : (P ++ buf.drop (r * w)).length = w * hh := by
      rw [List.length_append, hPlen, List.length_drop, hlen]
      have : r * w ≤ w * hh := by
        calc r * w ≤ hh * w := Nat.mul_le_mul_right w (by omega)
        _ = w * hh := Nat.mul_comm _ _
      omega
    have hfit : r * w + w ≤ (P ++ buf.drop (r * w)).length := by
      rw [hprevlen]
      calc r * w + w = (r + 1) * w := (Nat.succ_mul r w).symm
      _ ≤ hh * w := Nat.mul_le_mul_right w hr
      _ = w * hh := Nat.mul_comm _ _
    rw [foldl_set_row w (r * w) (fun col => F col r) _ hfit w le_rfl]
    have htake : (P ++ buf.drop (r * w)).take (r * w) = P := by
      rw [show r * w = P.length from hPlen.symm, List.take_left]
    have hdrop : (P ++ buf.drop (r * w)).drop (r * w + w) = buf.drop ((r + 1) * w) := by
      rw [show r * w + w = P.length + w from by rw [hPlen]]
      rw [show (P ++ buf.drop (r * w)).drop (P.length + w)
          = ((P ++ buf.drop (r * w)).drop P.length).drop w from
        (List.drop_drop w P.length _).symm]
      rw [List.drop_left, List.drop_drop]
      congr 1
      calc r * w + w = (r + 1) * w := (Nat.succ_mul r w).symm
      _ = _ := rfl
    rw [htake, hdrop, List.flatMap_append]
    simp [List.append_assoc]

/-- Evaluation of `render` on a buffer of the right length: the result is the row-major list
of pixel colours. -/
lemma render_eq (limit : ℕ) (pixels : List ℕ) (bounds : ℕ × ℕ)
    (upper_left lower_right : Complex ℚ)
    (hlen : pixels.length = bounds.1 * bounds.2) :
    render limit pixels bounds upper_left lower_right
      = some ((List.range bounds.2).flatMap (fun row =>
          (List.range bounds.1).map
            (fun col => colorAt limit bounds upper_left lower_right col row))) := by
  rw [render, if_pos hlen]
  congr 1
  rw [foldl_set_rows bounds.1 bounds.2 _ pixels hlen bounds.2 le_rfl]
  rw [show bounds.2 * bounds.1 = pixels.length from by rw [hlen, Nat.mul_comm]]
  simp

lemma flat_rows_getElem {α : Type} (w : ℕ) (g : ℕ → ℕ → α) :
    ∀ r row col, row < r → col < w →
      ((List.range r).flatMap
          (fun row => (List.range w).map (fun col => g col row)))[row * w + col]?
        = some (g col row) := by
  intro r
  induction r with
  | zero => intro row col h; omega
  | succ r ih =>
    intro row col hr hc
    rw [List.range_succ, List.flatMap_append]
    rcases Nat.lt_or_ge row r with h | h
    · rw [List.getElem?_append_left]
      · exact ih row col h hc
      · rw [flat_rows_length]
        have : row + 1 ≤ r := h
        calc row * w + col < row * w + w := by omega
        _ = (row + 1) * w := (Nat.succ_mul row w).symm
        _ ≤ r * w := Nat.mul_le_mul_right w this
    · have hrow : row = r := by omega
      subst hrow
      rw [List.getElem?_append_right (by rw [flat_rows_length]; omega)]
      rw [flat_rows_length, Nat.add_sub_cancel_left]
      simp only [List.flatMap_cons, List.flatMap_nil, List.append_nil]
      rw [List.getElem?_map, List.getElem?_range hc]
      rfl

/-- C5: if `render` succeeds (its length assertion holds) then for every
`row < height` and `col < width` the output byte at index `row * width + col`
is `0` when the Escape-Time Evaluator on the point obtained from
`pixel_to_point` with the band's bounds and corners returns `none`
(BoundedAfterLimit), and `255` otherwise. -/
theorem render_pixel_bytes (limit : ℕ) (pixels : List ℕ) (bounds : ℕ × ℕ)
    (upper_left lower_right : Complex ℚ) (out : List ℕ)
    (h : render limit pixels bounds upper_left lower_right = some out)
    (row col : ℕ) (hr : row < bounds.2) (hc : col < bounds.1) :
    out[row * bounds.1 + col]?
      = some (match belongs_to_mandelbrot_set
                (pixel_to_point bounds (col, row) upper_left lower_right) limit with
              | none => 0
              | some _ => 255) := by
  have hlen : pixels.length = bounds.1 * bounds.2 := by
    by_contra hne
    rw [render, if_neg hne] at h
    cases h
  rw [render_eq limit pixels bounds _ _ hlen] at h
  injection h with h'
  rw [← h']
  exact flat_rows_getElem bounds.1 _ bounds.2 row col hr hc

lemma chunk_sizes_bound (width rpb : ℕ) (hw : 0 < width) (hr : 0 < rpb) :
    ∀ fuel m, m ≤ fuel →
      ∀ c ∈ chunkSizes (rpb * width) (width * m), width ≤ c ∧ width ∣ c := by
  intro fuel
  induction fuel with
  | zero =>
    intro m hm c hc
    have : m = 0 := by omega
    subst this
    rw [Nat.mul_zero, chunkSizes_nil _ _ (Or.inr rfl)] at hc
    cases hc
  | succ fuel ih =>
    intro m hm c hc
    rcases Nat.eq_zero_or_pos m with hm0 | hm0
    · subst hm0
      rw [Nat.mul_zero, chunkSizes_nil _ _ (Or.inr rfl)] at hc
      cases hc
    rcases le_or_lt m rpb with hle | hlt
    · have hmin : min (rpb * width) (width * m) = width * m := by
        apply Nat.min_eq_right
        calc width * m ≤ width * rpb := Nat.mul_le_mul_left width hle
        _ = rpb * width := Nat.mul_comm _ _
      have hzero : width * m - rpb * width = 0 := by
        apply Nat.sub_eq_zero_of_le
        calc width * m ≤ width * rpb := Nat.mul_le_mul_left width hle
        _ = rpb * width := Nat.mul_comm _ _
      rw [chunkSizes_cons _ _ (by positivity) (by positivity), hmin, hzero,
        chunkSizes_nil _ 0 (Or.inr rfl)] at hc
      rcases List.mem_singleton.mp hc with rfl
      constructor
      · calc width = width * 1 := (Nat.mul_one width).symm
        _ ≤ width * m := Nat.mul_le_mul_left width hm0
      · exact dvd_mul_right width m
    · have hlen : rpb * width < width * m := by
        calc rpb * width = width * rpb := Nat.mul_comm _ _
        _ < width * m := (Nat.mul_lt_mul_left hw).mpr hlt
      have hmin : min (rpb * width) (width * m) = rpb * width :=
        Nat.min_eq_left hlen.le
      have hsub : width * m - rpb * width = width * (m - rpb) := by
        rw [Nat.mul_comm rpb width, nat_mul_sub]
      rw [chunkSizes_cons _ _ (by positivity) (by positivity), hmin, hsub] at hc
      rcases List.mem_cons.mp hc with rfl | htail
      · constructor
        · calc width = 1 * width := (Nat.one_mul width).symm
          _ ≤ rpb * width := Nat.mul_le_mul_right width hr
        · exact dvd_mul_left width rpb
      · exact ih (m - rpb) (by omega) c htail

/-- C10: for every positive width, height and worker count, every band chunk
produced by the dispatch in `main` has a length that is an exact multiple of
the width — it equals `width * (length / width)`, the product of the local
bounds computed for it — and the length-equality assertion at the start of
`render` never fails for any dispatched band (`render` returns `some`). -/
theorem band_chunks_fit (width height threads limit : ℕ)
    (upper_left lower_right : Complex ℚ)
    (hw : 0 < width) (_hh : 0 < height) (_ht : 0 < threads) :
    ∀ c ∈ chunkSizes ((height / threads + 1) * width) (width * height),
      c = width * (c / width) ∧
        (render limit (List.replicate c 0) (width, c / width)
            upper_left lower_right).isSome := by
  intro c hc
  obtain ⟨hle, hdvd⟩ := chunk_sizes_bound width (height / threads + 1) hw
    (Nat.succ_pos _) height height le_rfl c hc
  have he : c = width * (c / width) := (Nat.mul_div_cancel' hdvd).symm
  refine ⟨he, ?_⟩
  rw [render, if_pos (by rw [List.length_replicate]; exact he)]
  rfl

/-- Witness for C10: `width = 3`, `height = 5`, `threads = 2`, chunk `9`. -/
theorem band_chunks_fit_witness :
    (9 : ℕ) = 3 * (9 / 3) ∧
      (render 1 (List.replicate 9 0) (3, 9 / 3) ⟨0, 0⟩ ⟨0, 0⟩).isSome :=
  band_chunks_fit 3 5 2 1 ⟨0, 0⟩ ⟨0, 0⟩ (by decide) (by decide) (by decide) 9
    (by simp [chunkSizes, chunkSizesF])

/-- Witness for C5: a 2×1 image with `limit = 1`; the hypothesis of
`render_pixel_bytes` is discharged by evaluating `render` on this input. -/
theorem render_pixel_bytes_witness :
    (([0, 0] : List ℕ))[0 * 2 + 1]?
      = some (match belongs_to_mandelbrot_set
                (pixel_to_point (2, 1) (1, 0) ⟨-1, 1⟩ ⟨1, -1⟩) 1 with
              | none => 0
              | some _ => 255) := by
  have hp1 : pixel_to_point (2, 1) (0, 0) ⟨-1, 1⟩ ⟨1, -1⟩ = ⟨-1, 1⟩ := by
    ext <;> simp [pixel_to_point]
  have hp2 : pixel_to_point (2, 1) (1, 0) ⟨-1, 1⟩ ⟨1, -1⟩ = ⟨0, 1⟩ := by
    ext <;> simp [pixel_to_point] <;> norm_num
  have hb1 : belongs_to_mandelbrot_set ⟨-1, 1⟩ 1 = none := by
    show (if 4 < ((⟨0, 0⟩ : Complex ℚ) * ⟨0, 0⟩ + ⟨-1, 1⟩).norm_sqr then some 0
          else mandelbrotLoop ⟨-1, 1⟩ ((⟨0, 0⟩ : Complex ℚ) * ⟨0, 0⟩ + ⟨-1, 1⟩) (0 + 1) 0)
        = none
    rw [if_neg (by norm_num [Complex.norm_sqr])]
    rfl
  have hb2 : belongs_to_mandelbrot_set ⟨0, 1⟩ 1 = none := by
    show (if 4 < ((⟨0, 0⟩ : Complex ℚ) * ⟨0, 0⟩ + ⟨0, 1⟩).norm_sqr then some 0
          else mandelbrotLoop ⟨0, 1⟩ ((⟨0, 0⟩ : Complex ℚ) * ⟨0, 0⟩ + ⟨0, 1⟩) (0 + 1) 0)
        = none
    rw [if_neg (by norm_num [Complex.norm_sqr])]
    rfl
  have hc00 : colorAt 1 (2, 1) ⟨-1, 1⟩ ⟨1, -1⟩ 0 0 = 0 := by
    show (match belongs_to_mandelbrot_set
        (pixel_to_point (2, 1) (0, 0) ⟨-1, 1⟩ ⟨1, -1⟩) 1 with
      | none => 0
      | some _ => 255) = 0
    rw [hp1, hb1]
  have hc10 : colorAt 1 (2, 1) ⟨-1, 1⟩ ⟨1, -1⟩ 1 0 = 0 := by
    show (match belongs_to_mandelbrot_set
        (pixel_to_point (2, 1) (1, 0) ⟨-1, 1⟩ ⟨1, -1⟩) 1 with
      | none => 0
      | some _ => 255) = 0
    rw [hp2, hb2]
  have hrender : render 1 [0, 0] (2, 1) ⟨-1, 1⟩ ⟨1, -1⟩ = some [0, 0] := by
    rw [render_eq 1 [0, 0] (2, 1) ⟨-1, 1⟩ ⟨1, -1⟩ (by decide)]
    congr 1
    simp only [show List.range 1 = [0] from rfl, show List.range 2 = [0, 1] from rfl,
      List.flatMap_cons, List.flatMap_nil, List.map_cons, List.map_nil, List.append_nil,
      hc00, hc10]
  exact render_pixel_bytes 1 [0, 0] (2, 1) ⟨-1, 1⟩ ⟨1, -1⟩ [0, 0] hrender 0 1
    (by decide) (by decide)

lemma chunkSizes_replicate (width : ℕ) (hw : 0 < width) :
    ∀ m, chunkSizes width (width * m) = List.replicate m width := by
  intro m
  induction m with
  | zero => rw [Nat.mul_zero, chunkSizes_nil _ _ (Or.inr rfl)]; rfl
  | succ m ih =>
    rw [chunkSizes_cons _ _ hw (by positivity)]
    have hmin : min width (width * (m + 1)) = width := by
      apply Nat.min_eq_left
      calc width = width * 1 := (Nat.mul_one _).symm
      _ ≤ width * (m + 1) := Nat.mul_le_mul_left width (by omega)
    have hsub : width * (m + 1) - width = width * m := by
      rw [Nat.mul_succ]
      omega
    rw [hmin, hsub, ih]
    rfl

lemma enumFrom_replicate {α : Type} (a : α) :
    ∀ n j, (List.replicate n a).enumFrom j
      = (List.range n).map (fun i => (j + i, a)) := by
  intro n
  induction n with
  | zero => intro j; rfl
  | succ n ih =>
    intro j
    rw [List.replicate_succ, List.enumFrom_cons, ih (j + 1), List.range_succ_eq_map,
      List.map_cons, List.map_map]
    have hfun : ((fun i => (j + i, a)) ∘ Nat.succ) = (fun i => (j + 1 + i, a)) := by
      funext i
      simp only [Function.comp_apply, Prod.mk.injEq]
      exact ⟨by omega, trivial⟩
    rw [hfun]
    simp

lemma bands_small_height (width height threads : ℕ)
    (hw : 0 < width) (hlt : height < threads) :
    bands width height threads = (List.range height).map (fun i => (i, 1)) := by
  rw [bands, Nat.div_eq_of_lt hlt, Nat.zero_add, Nat.one_mul,
    chunkSizes_replicate width hw height, List.enum_eq_enumFrom,
    enumFrom_replicate, List.map_map]
  congr 1
  funext i
  simp only [Function.comp_apply]
  rw [Nat.one_mul, Nat.zero_add, Nat.div_self hw]

/-- C9 is false as stated: the partition never produces an empty band — for
every positive configuration with the worker count exceeding the height there
is no band covering zero rows (`chunks_mut` never yields an empty chunk). -/
theorem bands_final_empty_cex :
    ¬ ∃ (width height threads : ℕ), 0 < width ∧ 0 < height ∧ 0 < threads ∧
        height < threads ∧ ∃ b ∈ bands width height threads, b.2 = 0 := by
  rintro ⟨w, H, W, hw, hH, hW, hlt, b, hb, hb0⟩
  rw [bands_small_height w H W hw hlt] at hb
  obtain ⟨i, hi, rfl⟩ := List.mem_map.mp hb
  exact absurd hb0 one_ne_zero

/-- C9 amended: for every positive width, height and worker count with the
worker count exceeding the height, `rows_per_band = 1` and the partition
consists of exactly `height` bands, each covering exactly one row; in
particular the final band is never empty (the band count, not the band
heights, adapts). -/
theorem bands_workers_exceed_height (width height threads : ℕ)
    (hw : 0 < width) (_hh : 0 < height) (hlt : height < threads) :
    bands width height threads = (List.range height).map (fun i => (i, 1)) :=
  bands_small_height width height threads hw hlt

/-- Witness for the amended C9 at `width = 2`, `height = 3`, `threads = 5`. -/
theorem bands_workers_exceed_height_witness :
    bands 2 3 5 = (List.range 3).map (fun i => (i, 1)) :=
  bands_workers_exceed_height 2 3 5 (by decide) (by decide) (by decide)

lemma mem_of_enumFrom {α : Type} :
    ∀ (l : List α) (j : ℕ) (p : ℕ × α), p ∈ l.enumFrom j → p.2 ∈ l := by
  intro l
  induction l with
  | nil => intro j p h; cases h
  | cons a l ih =>
    intro j p h
    rw [List.enumFrom_cons] at h
    rcases List.mem_cons.mp h with rfl | h'
    · exact List.mem_cons_self a l
    · exact List.mem_cons_of_mem a (ih (j + 1) p h')

lemma mapM_eq_some {α β : Type} (f : α → Option β) (g : α → β) :
    ∀ l : List α, (∀ a ∈ l, f a = some (g a)) → l.mapM f = some (l.map g) := by
  intro l
  induction l with
  | nil => intro _; rfl
  | cons a l ih =>
    intro h
    rw [List.mapM_cons, h a (List.mem_cons_self a l),
      ih (fun x hx => h x (List.mem_cons_of_mem a hx))]
    rfl

/-- A band's own mapping agrees with the global one: mapping a local pixel
`(col, r)` against the band bounds `(w, hgt)` and the band corners (themselves
obtained from `pixel_to_point` against the global bounds) equals mapping the
global pixel `(col, top + r)` directly. -/
lemma band_point (w H : ℕ) (upper_left lower_right : Complex ℚ)
    (top hgt col r : ℕ) (hw : 0 < w) (hh : 0 < H) (hg : 0 < hgt) :
    pixel_to_point (w, hgt) (col, r)
        (pixel_to_point (w, H) (0, top) upper_left lower_right)
        (pixel_to_point (w, H) (w, top + hgt) upper_left lower_right)
      = pixel_to_point (w, H) (col, top + r) upper_left lower_right := by
  have hw' : ((w : ℚ)) ≠ 0 := Nat.cast_ne_zero.mpr hw.ne'
  have hh' : ((H : ℚ)) ≠ 0 := Nat.cast_ne_zero.mpr hh.ne'
  have hg' : ((hgt : ℚ)) ≠ 0 := Nat.cast_ne_zero.mpr hg.ne'
  ext <;> simp only [pixel_to_point] <;> push_cast <;> field_simp <;> ring

/-- The banded dispatch of `main` (lines 27-43): the zero-filled buffer of
length `width * height` is split by `chunks_mut(rows_per_band * width)`; chunk
`i` (of length `len`) is rendered with local bounds `(width, len / width)` and
with corners obtained by mapping its top-left and bottom-right pixel
coordinates against the global bounds and corners; the disjoint consecutive
chunks are reassembled in order (concatenation). -/
def bandedRender (threads limit : ℕ) (bounds : ℕ × ℕ)
    (upper_left lower_right : Complex ℚ) : Option (List ℕ) :=
  ((chunkSizes ((bounds.2 / threads + 1) * bounds.1) (bounds.1 * bounds.2)).enum.mapM
    (fun p =>
      render limit (List.replicate p.2 0) (bounds.1, p.2 / bounds.1)
        (pixel_to_point bounds (0, (bounds.2 / threads + 1) * p.1)
          upper_left lower_right)
        (pixel_to_point bounds
          (bounds.1, (bounds.2 / threads + 1) * p.1 + p.2 / bounds.1)
          upper_left lower_right))).map List.flatten

/-- C3: for every configuration, the pixel buffer produced by the banded
render (each band with its own local bounds and its plane sub-region derived
via `pixel_to_point` from the global bounds and corners) is identical to the
buffer produced by rendering the whole image as a single band; in particular
the worker-count setting does not change the output. -/
theorem banded_render_eq (threads limit : ℕ) (bounds : ℕ × ℕ)
    (upper_left lower_right : Complex ℚ)
    (_ht : 0 < threads) (hw : 0 < bounds.1) (hh : 0 < bounds.2) :
    bandedRender threads limit bounds upper_left lower_right
      = render limit (List.replicate (bounds.1 * bounds.2) 0) bounds
          upper_left lower_right := by
  obtain ⟨w, H⟩ := bounds
  simp only at hw hh
  rw [bandedRender]
  simp only
  have hmain : ∀ p ∈ (chunkSizes ((H / threads + 1) * w) (w * H)).enum,
      render limit (List.replicate p.2 0) (w, p.2 / w)
          (pixel_to_point (w, H) (0, (H / threads + 1) * p.1) upper_left lower_right)
          (pixel_to_point (w, H) (w, (H / threads + 1) * p.1 + p.2 / w)
            upper_left lower_right)
        = some (((List.range (p.2 / w)).map ((H / threads + 1) * p.1 + ·)).flatMap
            (fun row => (List.range w).map
              (fun col => colorAt limit (w, H) upper_left lower_right col row))) := by
    intro p hp
    have hmem : p.2 ∈ chunkSizes ((H / threads + 1) * w) (w * H) := by
      apply mem_of_enumFrom _ 0 p
      rw [← List.enum_eq_enumFrom]
      exact hp
    obtain ⟨hle, hdvd⟩ := chunk_sizes_bound w (H / threads + 1) hw
      (Nat.succ_pos _) H H le_rfl p.2 hmem
    have hg : 0 < p.2 / w := Nat.div_pos hle hw
    rw [render_eq _ _ _ _ _
      (by rw [List.length_replicate]; exact (Nat.mul_div_cancel' hdvd).symm)]
    congr 1
    rw [List.flatMap_map]
    simp only
    congr 1
    funext row
    congr 1
    funext col
    show (match belongs_to_mandelbrot_set
        (pixel_to_point (w, p.2 / w) (col, row)
          (pixel_to_point (w, H) (0, (H / threads + 1) * p.1) upper_left lower_right)
          (pixel_to_point (w, H) (w, (H / threads + 1) * p.1 + p.2 / w)
            upper_left lower_right)) limit with
      | none => 0
      | some _ => 255)
      = colorAt limit (w, H) upper_left lower_right col ((H / threads + 1) * p.1 + row)
    rw [band_point w H upper_left lower_right ((H / threads + 1) * p.1) (p.2 / w)
      col row hw hh hg]
    rfl
  rw [mapM_eq_some _
    (fun p => (((List.range (p.2 / w)).map ((H / threads + 1) * p.1 + ·)).flatMap
      (fun row => (List.range w).map
        (fun col => colorAt limit (w, H) upper_left lower_right col row))))
    _ hmain]
  rw [render_eq _ _ _ _ _ (by rw [List.length_replicate])]
  simp only [Option.map_some']
  congr 1
  rw [← List.flatMap_def]
  rw [← List.flatMap_assoc]
  have hpart :
      ((chunkSizes ((H / threads + 1) * w) (w * H)).enum).flatMap
          (fun p => (List.range (p.2 / w)).map ((H / threads + 1) * p.1 + ·))
        = List.range H := by
    have h := chunk_rows_aux w (H / threads + 1) hw (Nat.succ_pos _) H H 0 le_rfl
    rw [List.flatMap_map] at h
    simp only [Nat.mul_zero, Nat.zero_add] at h
    rw [List.enum_eq_enumFrom]
    rw [show (fun p : ℕ × ℕ => (List.range (p.2 / w)).map ((H / threads + 1) * p.1 + ·))
        = (fun p : ℕ × ℕ =>
            (List.range (((H / threads + 1) * p.1, p.2 / w).2)).map
              ((((H / threads + 1) * p.1, p.2 / w).1) + ·)) from rfl]
    rw [h]
    simp
  rw [hpart]

/-- Witness for C3: `threads = 4`, `limit = 2`, `bounds = (2, 1)`. -/
theorem banded_render_eq_witness :
    bandedRender 4 2 (2, 1) ⟨-1, 1⟩ ⟨1, -1⟩
      = render 2 (List.replicate (2 * 1) 0) (2, 1) ⟨-1, 1⟩ ⟨1, -1⟩ :=
  banded_render_eq 4 2 (2, 1) ⟨-1, 1⟩ ⟨1, -1⟩ (by decide) (by decide) (by decide)

/-- Outcome of a Rust call that may panic: either a panic or a returned value. -/
inductive Res (α : Type) where
  | panicked : Res α
  | returned : α → Res α
deriving DecidableEq

/-- Rust `str::find` with a string pattern, modelled at the char level: the
char position of the first occurrence of `sep` in `s`.  UTF-8 is
self-synchronizing (a lead byte never equals a continuation byte), so a
byte-level match of one valid string inside another can only start at a char
boundary; the byte index Rust returns is the total UTF-8 size of the chars
before the returned position. -/
def findCharIdx : List Char → List Char → Option ℕ
  | s, sep =>
    if sep.isPrefixOf s then some 0
    else
      match s with
      | [] => none
      | _ :: rest => (findCharIdx rest sep).map (· + 1)

lemma findCharIdx_nil (sep : List Char) :
    findCharIdx [] sep = if sep.isPrefixOf [] then some 0 else none := rfl

lemma findCharIdx_cons (c : Char) (rest sep : List Char) :
    findCharIdx (c :: rest) sep
      = if sep.isPrefixOf (c :: rest) then some 0
        else (findCharIdx rest sep).map (· + 1) := rfl

/-- main.rs `parse_pair`: find the first occurrence of `separator`, parse
`&s[0..index]` and `&s[index + 1..]`.  Rust slices at BYTE indices: `index` is
the byte index of the match (always a char boundary), and `index + 1` is a
valid char boundary iff the string continues at the match with a 1-byte char —
otherwise the slicing panics.  At the char level: the left side is the chars
before the match, the right side drops exactly one more char, which must have
UTF-8 size 1. -/
def parse_pair {T : Type} (from_str : List Char → Option T)
    (s separator : List Char) : Res (Option (T × T)) :=
  match findCharIdx s separator with
  | none => Res.returned none
  | some index =>
    match s.drop index with
    | [] => Res.panicked
    | c :: rest =>
      if c.utf8Size = 1 then
        Res.returned
          (match from_str (s.take index), from_str rest with
           | some l, some r => some (l, r)
           | _, _ => none)
      else Res.panicked

/-- Spec reading of `parse_pair`: split at the first occurrence of
the separator, the left component being the text before it and the right
component the text after the whole separator; `none` if the separator is
absent or either side fails to parse. -/
def parsePairSpec {T : Type} (from_str : List Char → Option T)
    (s separator : List Char) : Option (T × T) :=
  match findCharIdx s separator with
  | none => none
  | some index =>
    match from_str (s.take index), from_str (s.drop (index + separator.length)) with
    | some l, some r => some (l, r)
    | _, _ => none

/-- main.rs `parse_complex`: `parse_pair` with separator `","`, wrapped into a
`Complex` value; a panic of `parse_pair` propagates. -/
def parse_complex {T : Type} (from_str : List Char → Option T) (s : List Char) :
    Res (Option (Complex T)) :=
  match parse_pair from_str s [','] with
  | Res.panicked => Res.panicked
  | Res.returned none => Res.returned none
  | Res.returned (some (re, im)) => Res.returned (some ⟨re, im⟩)

lemma findCharIdx_isPrefixOf (sep : List Char) :
    ∀ (s : List Char) (i : ℕ), findCharIdx s sep = some i →
      sep.isPrefixOf (s.drop i) = true := by
  intro s
  induction s with
  | nil =>
    intro i h
    rw [findCharIdx_nil] at h
    by_cases hp : sep.isPrefixOf ([] : List Char) = true
    · rw [if_pos hp] at h
      injection h with h'
      subst h'
      simpa using hp
    · rw [if_neg hp] at h
      cases h
  | cons c rest ih =>
    intro i h
    rw [findCharIdx_cons] at h
    by_cases hp : sep.isPrefixOf (c :: rest) = true
    · rw [if_pos hp] at h
      injection h with h'
      subst h'
      simpa using hp
    · rw [if_neg hp] at h
      cases e : findCharIdx rest sep with
      | none => rw [e] at h; cases h
      | some i' =>
        rw [e] at h
        simp only [Option.map_some'] at h
        injection h with h'
        subst h'
        simpa using ih i' e

lemma cons_isPrefixOf_elim {c : Char} {rest l : List Char}
    (h : (c :: rest).isPrefixOf l = true) : ∃ t, l = c :: t := by
  cases l with
  | nil => exact Bool.noConfusion h
  | cons c' t =>
    have h' : (c == c' && rest.isPrefixOf t) = true := h
    simp only [Bool.and_eq_true, beq_iff_eq] at h'
    exact ⟨t, by rw [h'.1]⟩

/-- C6 is false as stated: with a separator of more than one character the
right-hand side parsed by `parse_pair` starts one byte after the match start,
not after the whole separator.  With the always-succeeding parser, the text
`"1ab2"` and the separator `"ab"`, the code returns the components
`("1", "b2")` while the spec's splitting yields `("1", "2")`. -/
theorem parse_pair_multichar_cex :
    parse_pair (fun cs => some cs) ['1', 'a', 'b', '2'] ['a', 'b']
      ≠ Res.returned
          (parsePairSpec (fun cs => some cs) ['1', 'a', 'b', '2'] ['a', 'b']) := by
  decide

/-- C6 amended: for every separator consisting of a single character of UTF-8
size 1 (in particular the separators `"x"` and `","` the program uses),
`parse_pair` returns exactly the spec's splitting: `some` of the parses of the
text before and after the separator occurrence when both succeed, `none` when
the separator is absent or either side fails to parse. -/
theorem parse_pair_single_char {T : Type} (from_str : List Char → Option T)
    (s : List Char) (c : Char) (hc : c.utf8Size = 1) :
    parse_pair from_str s [c] = Res.returned (parsePairSpec from_str s [c]) := by
  unfold parse_pair parsePairSpec
  cases e : findCharIdx s [c] with
  | none => rfl
  | some i =>
    have hp := findCharIdx_isPrefixOf [c] s i e
    obtain ⟨t, ht⟩ := cons_isPrefixOf_elim hp
    have htt : t = s.drop (i + 1) := by
      have h2 := List.tail_drop s i
      rw [ht] at h2
      simpa using h2
    show (match s.drop i with
      | [] => Res.panicked
      | c' :: rest' =>
        if c'.utf8Size = 1 then
          Res.returned (match from_str (s.take i), from_str rest' with
            | some l, some r => some (l, r)
            | _, _ => none)
        else Res.panicked)
      = Res.returned (match from_str (s.take i), from_str (s.drop (i + [c].length)) with
          | some l, some r => some (l, r)
          | _, _ => none)
    rw [ht]
    show (if c.utf8Size = 1 then
        Res.returned (match from_str (s.take i), from_str t with
          | some l, some r => some (l, r)
          | _, _ => none)
      else Res.panicked) = _
    rw [if_pos hc, show s.drop (i + [c].length) = t from htt.symm]

/-- Witness for the amended C6: separator `"x"`, text `"1x2"`. -/
theorem parse_pair_single_char_witness :
    parse_pair (fun cs => some cs) ['1', 'x', '2'] ['x']
      = Res.returned (parsePairSpec (fun cs => some cs) ['1', 'x', '2'] ['x']) :=
  parse_pair_single_char (fun cs => some cs) ['1', 'x', '2'] ('x') (by decide)

/-- C7 is false as stated: `parse_pair` can panic.  With the separator `"é"`
(first char of UTF-8 size 2) and the text `"aéb"`, the byte index
`index + 1` falls inside the matched character, and the slice `&s[index+1..]`
panics. -/
theorem parse_pair_panic_cex :
    parse_pair (fun cs => some cs) ['a', 'é', 'b'] ['é'] = Res.panicked := by
  decide

lemma parse_pair_no_panic {T : Type} (from_str : List Char → Option T)
    (s : List Char) (c : Char) (rest : List Char) (hc : c.utf8Size = 1) :
    ∃ v, parse_pair from_str s (c :: rest) = Res.returned v := by
  unfold parse_pair
  cases e : findCharIdx s (c :: rest) with
  | none => exact ⟨none, rfl⟩
  | some i =>
    have hp := findCharIdx_isPrefixOf (c :: rest) s i e
    obtain ⟨t, ht⟩ := cons_isPrefixOf_elim hp
    show ∃ v, (match s.drop i with
      | [] => Res.panicked
      | c' :: rest' =>
        if c'.utf8Size = 1 then
          Res.returned (match from_str (s.take i), from_str rest' with
            | some l, some r => some (l, r)
            | _, _ => none)
        else Res.panicked) = Res.returned v
    rw [ht]
    show ∃ v, (if c.utf8Size = 1 then
        Res.returned (match from_str (s.take i), from_str t with
          | some l, some r => some (l, r)
          | _, _ => none)
      else Res.panicked) = Res.returned v
    rw [if_pos hc]
    exact ⟨_, rfl⟩

/-- C7 amended: `parse_pair` terminates normally (returns `some` or `none`,
never panics) for every text and every separator that begins with a character
of UTF-8 size 1 — in particular for every nonempty ASCII separator — and
`parse_complex` (separator `","`) never panics for any input text. -/
theorem parse_total {T : Type} (from_str : List Char → Option T) (s : List Char)
    (c : Char) (rest : List Char) (hc : c.utf8Size = 1) :
    (∃ v, parse_pair from_str s (c :: rest) = Res.returned v) ∧
      (∃ v, parse_complex from_str s = Res.returned v) := by
  refine ⟨parse_pair_no_panic from_str s c rest hc, ?_⟩
  obtain ⟨v, hv⟩ := parse_pair_no_panic from_str s (',') [] (by decide)
  unfold parse_complex
  rw [hv]
  cases v with
  | none => exact ⟨none, rfl⟩
  | some p =>
    obtain ⟨re, im⟩ := p
    exact ⟨some ⟨re, im⟩, rfl⟩

/-- Witness for the amended C7: text `"1#2"`, separator `"#"`. -/
theorem parse_total_witness :
    (∃ v, parse_pair (fun cs => some cs) ['1', '#', '2'] (('#') :: [])
        = Res.returned v) ∧
      (∃ v, parse_complex (fun cs => some cs) ['1', '#', '2'] = Res.returned v) :=
  parse_total (fun cs => some cs) ['1', '#', '2'] ('#') [] (by decide)

end Mandelbrot
